import Mathlib

/-!
Verification of the keyword-search-and-outlier dashboard (`src/app.py`).

The development shallowly embeds the logical core of the application:
the outlier-score calculator `calculate_outlier_score`, the ISO-8601
duration parsing done through the `isodate` library in `parse_duration`,
and the filter/sort/truncate pipeline of `main` (keyword presence in
title/description, strict score threshold, duration-class filter,
stable descending sort, truncation to the first 10 records, and the
single un-batched detail request).

Numeric conventions: Python floats are idealised as exact arithmetic
(`ℝ` for the score formula, `ℚ` for parsed durations); machine
rounding of IEEE doubles and of `timedelta`'s microsecond resolution
is outside the granularity of the model.  Strings are `List Char`,
with Python's `str.lower` modelled on the ASCII range by
`Char.toLower`.
-/

/-- Strings of the embedding: Python `str` as a list of characters. -/
abbrev Str := List Char

/-- Python `s.lower()`, modelled characterwise on the ASCII range. -/
def lowerStr (s : Str) : Str := s.map Char.toLower

/-! ### Score calculator (`calculate_outlier_score`, src/app.py lines 59-72) -/

/-- Embedding of `calculate_outlier_score(view_count, like_count, duration_seconds)`:
`duration_minutes = duration_seconds / 60.0`;
`base_score = log(view_count+1)*1.5 + log(like_count+1)*2`;
`duration_factor = exp(-duration_minutes/30)*5`;
returns `base_score * (0.8 + duration_factor*0.2)`. -/
noncomputable def calculate_outlier_score (view_count like_count : ℕ) (duration_seconds : ℝ) : ℝ :=
  (Real.log ((view_count : ℝ) + 1) * 1.5 + Real.log ((like_count : ℝ) + 1) * 2) *
    (0.8 + Real.exp (-(duration_seconds / 60) / 30) * 5 * 0.2)

/-- The formula of the spec, Strategy B sub-variant (b):
`(1.5*ln(views+1) + 2*ln(likes+1)) * (0.8 + 0.2*exp(-duration_minutes/30)*5)`
with `duration_minutes = duration_seconds/60`. -/
noncomputable def strategyBScore (views likes : ℕ) (duration_seconds : ℝ) : ℝ :=
  (1.5 * Real.log ((views : ℝ) + 1) + 2 * Real.log ((likes : ℝ) + 1)) *
    (0.8 + 0.2 * Real.exp (-(duration_seconds / 60) / 30) * 5)

/-- The base factor of the score is nonnegative. -/
lemma score_base_nonneg (v l : ℕ) :
    0 ≤ Real.log ((v : ℝ) + 1) * 1.5 + Real.log ((l : ℝ) + 1) * 2 := by
  have hv : 0 ≤ Real.log ((v : ℝ) + 1) :=
    Real.log_nonneg (by have := Nat.cast_nonneg (α := ℝ) v; linarith)
  have hl : 0 ≤ Real.log ((l : ℝ) + 1) :=
    Real.log_nonneg (by have := Nat.cast_nonneg (α := ℝ) l; linarith)
  linarith

/-- The duration factor of the score is positive. -/
lemma score_factor_pos (d : ℝ) :
    0 < 0.8 + Real.exp (-(d / 60) / 30) * 5 * 0.2 := by
  have := Real.exp_pos (-(d / 60) / 30)
  linarith

/-- C1: for all nonnegative integer view and like counts and nonnegative
duration, `calculate_outlier_score` computes exactly the Strategy B
sub-variant (b) formula
`(1.5*ln(views+1) + 2*ln(likes+1)) * (0.8 + 0.2*exp(-(d/60)/30)*5)`. -/
theorem calculate_outlier_score_eq_strategyB (v l : ℕ) (d : ℝ) (_hd : 0 ≤ d) :
    calculate_outlier_score v l d = strategyBScore v l d := by
  unfold calculate_outlier_score strategyBScore
  ring

/-- Witness for C1 at `views = 0`, `likes = 0`, `duration = 0`. -/
theorem calculate_outlier_score_eq_strategyB_witness :
    calculate_outlier_score 0 0 0 = strategyBScore 0 0 0 :=
  calculate_outlier_score_eq_strategyB 0 0 0 (le_refl 0)

/-- C10: on nonnegative inputs the score is monotone nondecreasing in the
view count and in the like count, monotone nonincreasing in the duration,
and nonnegative; and it is exactly `0` when views and likes are both `0`. -/
theorem calculate_outlier_score_monotone :
    (∀ (v v' l : ℕ) (d : ℝ), 0 ≤ d → v ≤ v' →
      calculate_outlier_score v l d ≤ calculate_outlier_score v' l d) ∧
    (∀ (v l l' : ℕ) (d : ℝ), 0 ≤ d → l ≤ l' →
      calculate_outlier_score v l d ≤ calculate_outlier_score v l' d) ∧
    (∀ (v l : ℕ) (d d' : ℝ), 0 ≤ d → d ≤ d' →
      calculate_outlier_score v l d' ≤ calculate_outlier_score v l d) ∧
    (∀ (v l : ℕ) (d : ℝ), 0 ≤ d → 0 ≤ calculate_outlier_score v l d) ∧
    (∀ d : ℝ, calculate_outlier_score 0 0 d = 0) := by
  refine ⟨?_, ?_, ?_, ?_, ?_⟩
  · intro v v' l d _ hvv
    unfold calculate_outlier_score
    have hlog : Real.log ((v : ℝ) + 1) ≤ Real.log ((v' : ℝ) + 1) := by
      apply Real.log_le_log (by have := Nat.cast_nonneg (α := ℝ) v; linarith)
      have : (v : ℝ) ≤ (v' : ℝ) := Nat.cast_le.mpr hvv
      linarith
    have hf := score_factor_pos d
    have hbase : Real.log ((v : ℝ) + 1) * 1.5 + Real.log ((l : ℝ) + 1) * 2 ≤
        Real.log ((v' : ℝ) + 1) * 1.5 + Real.log ((l : ℝ) + 1) * 2 := by linarith
    exact mul_le_mul_of_nonneg_right hbase (le_of_lt hf)
  · intro v l l' d _ hll
    unfold calculate_outlier_score
    have hlog : Real.log ((l : ℝ) + 1) ≤ Real.log ((l' : ℝ) + 1) := by
      apply Real.log_le_log (by have := Nat.cast_nonneg (α := ℝ) l; linarith)
      have : (l : ℝ) ≤ (l' : ℝ) := Nat.cast_le.mpr hll
      linarith
    have hf := score_factor_pos d
    have hbase : Real.log ((v : ℝ) + 1) * 1.5 + Real.log ((l : ℝ) + 1) * 2 ≤
        Real.log ((v : ℝ) + 1) * 1.5 + Real.log ((l' : ℝ) + 1) * 2 := by linarith
    exact mul_le_mul_of_nonneg_right hbase (le_of_lt hf)
  · intro v l d d' _ hdd
    unfold calculate_outlier_score
    have hexp : Real.exp (-(d' / 60) / 30) ≤ Real.exp (-(d / 60) / 30) :=
      Real.exp_le_exp.mpr (by linarith)
    have hbase := score_base_nonneg v l
    have hfac : 0.8 + Real.exp (-(d' / 60) / 30) * 5 * 0.2 ≤
        0.8 + Real.exp (-(d / 60) / 30) * 5 * 0.2 := by linarith
    exact mul_le_mul_of_nonneg_left hfac hbase
  · intro v l d _
    unfold calculate_outlier_score
    exact mul_nonneg (score_base_nonneg v l) (le_of_lt (score_factor_pos d))
  · intro d
    unfold calculate_outlier_score
    simp [Real.log_one]

/-- Witness for C10: monotonicity in views and nonnegativity at concrete inputs. -/
theorem calculate_outlier_score_monotone_witness :
    calculate_outlier_score 2 3 1 ≤ calculate_outlier_score 5 3 1 ∧
    0 ≤ calculate_outlier_score 2 3 1 :=
  ⟨calculate_outlier_score_monotone.1 2 5 3 1 (by norm_num) (by norm_num),
   calculate_outlier_score_monotone.2.2.2.1 2 3 1 (by norm_num)⟩

/-! ### Duration parsing (`parse_duration`, src/app.py lines 75-80)

`parse_duration` calls `isodate.parse_duration` and returns
`.total_seconds()` of the result, with any exception absorbed into a
return value of `0`.  The `isodate` library matches the string against
its ISO-8601 period regular expression
`^[+-]?P(?!\b)(nY)?(nM)?(nW)?(nD)?(T(nH)?(nM)?(nS)?)?$` where each `n`
is `[0-9]+([,.][0-9]+)?`, and builds a `timedelta` from the weeks,
days, hours, minutes and seconds components.  When the years or months
component is nonzero it builds a `Duration` object instead, whose
`total_seconds` attribute is forwarded to its internal `timedelta`, so
years and months never contribute seconds.  The extended alternative
date-time duration format (`P0003-06-04T12:30:05`) accepted by the
library's fallback path is not modelled; it is treated as a parse
failure, which in the application surfaces as the same result `0`. -/

/-- Numeric value of a run of decimal digit characters, most significant first. -/
def digitsVal (ds : Str) : ℕ := ds.foldl (fun a c => 10 * a + (c.toNat - 48)) 0

/-- A word character of the regex class `\w`, restricted to ASCII. -/
def isWordChar (c : Char) : Bool := c.isAlphanum || c = '_'

/-- Match the regex fragment `[0-9]+([,.][0-9]+)?` at the head of `s`,
returning the rational value of the matched number and the unconsumed
rest, or `none` when `s` does not start with a digit. -/
def matchNumber (s : Str) : Option (ℚ × Str) :=
  let ds := s.takeWhile Char.isDigit
  let r := s.dropWhile Char.isDigit
  if ds = [] then none
  else
    match r with
    | [] => some ((digitsVal ds : ℚ), [])
    | c :: r2 =>
      if c = '.' ∨ c = ',' then
        let fs := r2.takeWhile Char.isDigit
        let r3 := r2.dropWhile Char.isDigit
        if fs = [] then some ((digitsVal ds : ℚ), r)
        else some ((digitsVal ds : ℚ) + (digitsVal fs : ℚ) / (10 : ℚ) ^ fs.length, r3)
      else some ((digitsVal ds : ℚ), r)

/-- Match one optional component group `([0-9]+([,.][0-9]+)?u)?` of the
period regex: when a number immediately followed by the unit letter `u`
is present at the head of `s` it is consumed and its value returned,
otherwise the group matches the empty string and the value is `0`. -/
def matchGroup (u : Char) (s : Str) : ℚ × Str :=
  match matchNumber s with
  | none => (0, s)
  | some (q, r) =>
    match r with
    | [] => (0, s)
    | c :: r2 => if c = u then (q, r2) else (0, s)

/-- The four optional date components `Y`, `M`, `W`, `D` of the period regex. -/
def dateGroups (s : Str) : (ℚ × ℚ × ℚ × ℚ) × Str :=
  let py := matchGroup 'Y' s
  let pm := matchGroup 'M' py.2
  let pw := matchGroup 'W' pm.2
  let pd := matchGroup 'D' pw.2
  ((py.1, pm.1, pw.1, pd.1), pd.2)

/-- The three optional time components `H`, `M`, `S` of the period regex. -/
def timeGroups (s : Str) : (ℚ × ℚ × ℚ) × Str :=
  let ph := matchGroup 'H' s
  let pm := matchGroup 'M' ph.2
  let ps := matchGroup 'S' pm.2
  ((ph.1, pm.1, ps.1), ps.2)

/-- `isodate.parse_duration` followed by `.total_seconds()` on an unsigned
string: `none` models an exception escaping the library call.  The
`P(?!\b)` fragment demands a word character right after `P`; the final
`$` demands that the whole string is consumed.  Weeks, days, hours,
minutes and seconds contribute to the total; a parsed years or months
value selects the library's `Duration` object, whose `total_seconds`
is forwarded to the internal `timedelta` and therefore contributes `0`
seconds, so the same sum applies on that path as well. -/
def isodateParseCore (s : Str) : Option ℚ :=
  match s with
  | [] => none
  | c :: s2 =>
    if c = 'P' then
      match s2 with
      | [] => none
      | c2 :: _ =>
        if isWordChar c2 then
          let dg := dateGroups s2
          let tg : (ℚ × ℚ × ℚ) × Str :=
            match dg.2 with
            | [] => ((0, 0, 0), [])
            | c3 :: t1 => if c3 = 'T' then timeGroups t1 else ((0, 0, 0), dg.2)
          if tg.2 = [] then
            some (dg.1.2.2.1 * 604800 + dg.1.2.2.2 * 86400 +
              tg.1.1 * 3600 + tg.1.2.1 * 60 + tg.1.2.2)
          else none
        else none
    else none

/-- `isodate.parse_duration` with the optional leading sign `[+-]?`: a
leading `-` negates the parsed total. -/
def isodateParse (s : Str) : Option ℚ :=
  match s with
  | [] => isodateParseCore []
  | c :: r =>
    if c = '-' then (isodateParseCore r).map (fun q => -q)
    else if c = '+' then isodateParseCore r
    else isodateParseCore (c :: r)

/-- Embedding of `parse_duration`: the `isodate` parse with every
exception absorbed by the `try/except` into a result of `0`. -/
def parse_duration (s : Str) : ℚ := (isodateParse s).getD 0

/-! ### The manual reference parser of the spec -/

/-- Modelled from the spec: one component of the manual reference parser,
the digit run immediately preceding the unit letter `u`; absence of the
letter (or of digits before it) leaves the value `0` and the input
unconsumed. -/
def refComponent (u : Char) (s : Str) : ℕ × Str :=
  let ds := s.takeWhile Char.isDigit
  let r := s.dropWhile Char.isDigit
  match r with
  | [] => (0, s)
  | c :: r2 => if c = u ∧ ds ≠ [] then (digitsVal ds, r2) else (0, s)

/-- Modelled from the spec: the manual reference duration parser that a
later variant reimplements by hand — extract the digit run preceding
each of `H`, `M`, `S` in left-to-right order from a string of the
restricted form `PT[nH][nM][nS]`; a missing letter means that unit is
zero, and any string not matching the restricted form yields `0`. -/
def referenceParseDuration (s : Str) : ℕ :=
  match s with
  | c1 :: c2 :: rest =>
    if c1 = 'P' ∧ c2 = 'T' then
      let ph := refComponent 'H' rest
      let pm := refComponent 'M' ph.2
      let ps := refComponent 'S' pm.2
      if ps.2 = [] then 3600 * ph.1 + 60 * pm.1 + ps.1 else 0
    else 0
  | _ => 0

/-! ### The restricted well-formed duration shape `PT[nH][nM][nS]` -/

/-- One optional component of the restricted form: a digit run followed
by its unit letter, or nothing. -/
def optComp (u : Char) : Option Str → Str
  | none => []
  | some ds => ds ++ [u]

/-- A well-formed duration string `PT[nH][nM][nS]` assembled from three
optional digit runs. -/
def mkPT (hd md sd : Option Str) : Str :=
  'P' :: 'T' :: (optComp 'H' hd ++ (optComp 'M' md ++ optComp 'S' sd))

/-- The optional component, when present, is a nonempty run of decimal
digits. -/
def digitRun : Option Str → Prop
  | none => True
  | some ds => ds ≠ [] ∧ ∀ c ∈ ds, Char.isDigit c

instance : DecidablePred digitRun := fun o =>
  match o with
  | none => inferInstanceAs (Decidable True)
  | some _ => inferInstanceAs (Decidable (_ ∧ _))

/-- Numeric value of an optional digit run, `0` when absent. -/
def optVal (o : Option Str) : ℕ := digitsVal (o.getD [])

/-! ### Evaluation lemmas for the parser model -/

/-- `takeWhile`/`dropWhile` with the digit predicate split a digit run off
the front of an appended string. -/
lemma takeWhile_digit_append (ds rest : Str) (hds : ∀ c ∈ ds, Char.isDigit c)
    (hrest : ∀ c, rest.head? = some c → ¬ Char.isDigit c) :
    (ds ++ rest).takeWhile Char.isDigit = ds ∧
      (ds ++ rest).dropWhile Char.isDigit = rest := by
  induction ds with
  | nil =>
    simp only [List.nil_append]
    cases rest with
    | nil => simp
    | cons c r =>
      have hc := hrest c rfl
      simp [List.takeWhile_cons, List.dropWhile_cons, hc]
  | cons c ds ih =>
    have hc : Char.isDigit c := hds c (List.mem_cons_self _ _)
    have ih' := ih fun x hx => hds x (List.mem_cons_of_mem _ hx)
    simp [List.takeWhile_cons, List.dropWhile_cons, hc, ih'.1, ih'.2]

/-- `matchNumber` consumes exactly a leading digit run when what follows
can neither extend the run nor start a fraction. -/
lemma matchNumber_digits (ds rest : Str) (hne : ds ≠ [])
    (hds : ∀ c ∈ ds, Char.isDigit c)
    (hrest : ∀ c, rest.head? = some c → ¬ Char.isDigit c ∧ c ≠ '.' ∧ c ≠ ',') :
    matchNumber (ds ++ rest) = some ((digitsVal ds : ℚ), rest) := by
  have htd := takeWhile_digit_append ds rest hds fun c hc => (hrest c hc).1
  unfold matchNumber
  rw [htd.1, htd.2]
  simp only [hne, if_false]
  cases rest with
  | nil => simp
  | cons c r2 =>
    have hc := hrest c rfl
    simp [hc.2.1, hc.2.2]

/-- An empty string holds no component group. -/
lemma matchGroup_nil (u : Char) : matchGroup u [] = (0, []) := rfl

/-- A string whose head is not a digit holds no component group. -/
lemma matchGroup_head_not_digit (u : Char) (s : Str)
    (hs : ∀ c, s.head? = some c → ¬ Char.isDigit c) :
    matchGroup u s = (0, s) := by
  have hmn : matchNumber s = none := by
    unfold matchNumber
    cases s with
    | nil => rfl
    | cons c r =>
      have hc := hs c rfl
      simp [List.takeWhile_cons, hc]
  unfold matchGroup
  rw [hmn]

/-- A digit run followed by the group's own unit letter is consumed. -/
lemma matchGroup_present (u : Char) (ds rest : Str) (hne : ds ≠ [])
    (hds : ∀ c ∈ ds, Char.isDigit c) (hu : ¬ Char.isDigit u)
    (hud : u ≠ '.') (huc : u ≠ ',') :
    matchGroup u (ds ++ u :: rest) = ((digitsVal ds : ℚ), rest) := by
  have h := matchNumber_digits ds (u :: rest) hne hds ?_
  · unfold matchGroup
    rw [h]
    simp
  · intro c hc
    simp only [List.head?_cons, Option.some.injEq] at hc
    subst hc
    exact ⟨hu, hud, huc⟩

/-- A digit run followed by a different unit letter leaves the group
unmatched and the input untouched. -/
lemma matchGroup_mismatch (u u' : Char) (ds rest : Str)
    (hds : ∀ c ∈ ds, Char.isDigit c) (hu' : ¬ Char.isDigit u')
    (hud : u' ≠ '.') (huc : u' ≠ ',') (hne : u' ≠ u) :
    matchGroup u (ds ++ u' :: rest) = (0, ds ++ u' :: rest) := by
  by_cases h0 : ds = []
  · subst h0
    simp only [List.nil_append]
    refine matchGroup_head_not_digit u _ ?_
    intro c hc
    simp only [List.head?_cons, Option.some.injEq] at hc
    subst hc
    exact hu'
  · have h := matchNumber_digits ds (u' :: rest) h0 hds ?_
    · unfold matchGroup
      rw [h]
      simp [hne]
    · intro c hc
      simp only [List.head?_cons, Option.some.injEq] at hc
      subst hc
      exact ⟨hu', hud, huc⟩

/-- A present optional component of the restricted form is consumed by its
own group; an absent one defers to the given continuation behaviour. -/
lemma matchGroup_optComp (u : Char) (o : Option Str) (rest : Str)
    (ho : digitRun o) (hu : ¬ Char.isDigit u) (hud : u ≠ '.') (huc : u ≠ ',')
    (habs : o = none → matchGroup u rest = (0, rest)) :
    matchGroup u (optComp u o ++ rest) = ((optVal o : ℚ), rest) := by
  cases o with
  | none =>
    have := habs rfl
    simpa [optComp, optVal, digitsVal] using this
  | some ds =>
    obtain ⟨hne, hds⟩ := ho
    have heq : optComp u (some ds) ++ rest = ds ++ u :: rest := by
      simp [optComp]
    rw [heq, matchGroup_present u ds rest hne hds hu hud huc]
    rfl

/-- A later component of the restricted form never matches an earlier
group's unit letter. -/
lemma matchGroup_skip (u u' : Char) (o : Option Str) (rest : Str)
    (ho : digitRun o) (hu' : ¬ Char.isDigit u') (hud : u' ≠ '.') (huc : u' ≠ ',')
    (hneu : u' ≠ u)
    (habs : o = none → matchGroup u rest = (0, rest)) :
    matchGroup u (optComp u' o ++ rest) = (0, optComp u' o ++ rest) := by
  cases o with
  | none =>
    simpa [optComp] using habs rfl
  | some ds =>
    obtain ⟨_, hds⟩ := ho
    have heq : optComp u' (some ds) ++ rest = ds ++ u' :: rest := by
      simp [optComp]
    rw [heq, matchGroup_mismatch u u' ds rest hds hu' hud huc hneu]

/-- The time part of a restricted well-formed string parses to its three
component values and consumes the whole string. -/
lemma timeGroups_mkPT (hd md sd : Option Str)
    (h1 : digitRun hd) (h2 : digitRun md) (h3 : digitRun sd) :
    timeGroups (optComp 'H' hd ++ (optComp 'M' md ++ optComp 'S' sd)) =
      (((optVal hd : ℚ), (optVal md : ℚ), (optVal sd : ℚ)), []) := by
  have hS : matchGroup 'S' (optComp 'S' sd) = ((optVal sd : ℚ), []) := by
    have := matchGroup_optComp 'S' sd [] h3 (by decide) (by decide) (by decide)
      fun _ => matchGroup_nil 'S'
    simpa using this
  have hSkipMS : matchGroup 'M' (optComp 'S' sd) = (0, optComp 'S' sd) := by
    have := matchGroup_skip 'M' 'S' sd [] h3 (by decide) (by decide) (by decide)
      (by decide) fun _ => matchGroup_nil 'M'
    simpa using this
  have hM : matchGroup 'M' (optComp 'M' md ++ optComp 'S' sd) =
      ((optVal md : ℚ), optComp 'S' sd) :=
    matchGroup_optComp 'M' md (optComp 'S' sd) h2 (by decide) (by decide) (by decide)
      fun _ => hSkipMS
  have hSkipHS : matchGroup 'H' (optComp 'S' sd) = (0, optComp 'S' sd) := by
    have := matchGroup_skip 'H' 'S' sd [] h3 (by decide) (by decide) (by decide)
      (by decide) fun _ => matchGroup_nil 'H'
    simpa using this
  have hSkipHM : matchGroup 'H' (optComp 'M' md ++ optComp 'S' sd) =
      (0, optComp 'M' md ++ optComp 'S' sd) :=
    matchGroup_skip 'H' 'M' md (optComp 'S' sd) h2 (by decide) (by decide) (by decide)
      (by decide) fun _ => hSkipHS
  have hH : matchGroup 'H' (optComp 'H' hd ++ (optComp 'M' md ++ optComp 'S' sd)) =
      ((optVal hd : ℚ), optComp 'M' md ++ optComp 'S' sd) :=
    matchGroup_optComp 'H' hd (optComp 'M' md ++ optComp 'S' sd) h1 (by decide)
      (by decide) (by decide) fun _ => hSkipHM
  simp [timeGroups, hH, hM, hS]

/-- The date groups match nothing on a string starting with `T`. -/
lemma dateGroups_T (body : Str) :
    dateGroups ('T' :: body) = ((0, 0, 0, 0), 'T' :: body) := by
  have h : ∀ u : Char, matchGroup u ('T' :: body) = (0, 'T' :: body) := by
    intro u
    refine matchGroup_head_not_digit u _ ?_
    intro c hc
    simp only [List.head?_cons, Option.some.injEq] at hc
    subst hc
    decide
  simp [dateGroups, h]

/-- The unsigned `isodate` parse of a restricted well-formed string
`PT[nH][nM][nS]` succeeds with value `3600*h + 60*m + s`. -/
lemma isodateParseCore_mkPT (hd md sd : Option Str)
    (h1 : digitRun hd) (h2 : digitRun md) (h3 : digitRun sd) :
    isodateParseCore (mkPT hd md sd) =
      some (((3600 * optVal hd + 60 * optVal md + optVal sd : ℕ) : ℚ)) := by
  unfold mkPT
  have hw : isWordChar 'T' = true := by decide
  simp [isodateParseCore, dateGroups_T, timeGroups_mkPT hd md sd h1 h2 h3, hw]
  ring

/-- A string starting with anything other than a sign character is parsed
unsigned. -/
lemma isodateParse_cons (c : Char) (r : Str) (h1 : c ≠ '-') (h2 : c ≠ '+') :
    isodateParse (c :: r) = isodateParseCore (c :: r) := by
  simp [isodateParse, h1, h2]

/-- The reference parser finds no component in an empty string. -/
lemma refComponent_nil (u : Char) : refComponent u [] = (0, []) := rfl

/-- The reference parser consumes a digit run followed by its own unit
letter. -/
lemma refComponent_present (u : Char) (ds rest : Str) (hne : ds ≠ [])
    (hds : ∀ c ∈ ds, Char.isDigit c) (hu : ¬ Char.isDigit u) :
    refComponent u (ds ++ u :: rest) = (digitsVal ds, rest) := by
  have htd := takeWhile_digit_append ds (u :: rest) hds ?_
  · unfold refComponent
    rw [htd.1, htd.2]
    simp [hne]
  · intro c hc
    simp only [List.head?_cons, Option.some.injEq] at hc
    subst hc
    exact hu

/-- A digit run followed by a different unit letter leaves the reference
component unmatched and the input untouched. -/
lemma refComponent_mismatch (u u' : Char) (ds rest : Str)
    (hds : ∀ c ∈ ds, Char.isDigit c) (hu' : ¬ Char.isDigit u') (hneu : u' ≠ u) :
    refComponent u (ds ++ u' :: rest) = (0, ds ++ u' :: rest) := by
  have htd := takeWhile_digit_append ds (u' :: rest) hds ?_
  · unfold refComponent
    rw [htd.1, htd.2]
    simp [hneu]
  · intro c hc
    simp only [List.head?_cons, Option.some.injEq] at hc
    subst hc
    exact hu'

/-- A present optional component is consumed by its own reference group;
an absent one defers to the continuation behaviour. -/
lemma refComponent_optComp (u : Char) (o : Option Str) (rest : Str)
    (ho : digitRun o) (hu : ¬ Char.isDigit u)
    (habs : o = none → refComponent u rest = (0, rest)) :
    refComponent u (optComp u o ++ rest) = (optVal o, rest) := by
  cases o with
  | none =>
    simpa [optComp, optVal, digitsVal] using habs rfl
  | some ds =>
    obtain ⟨hne, hds⟩ := ho
    have heq : optComp u (some ds) ++ rest = ds ++ u :: rest := by
      simp [optComp]
    rw [heq, refComponent_present u ds rest hne hds hu]
    rfl

/-- A later optional component never matches an earlier reference group's
unit letter. -/
lemma refComponent_skip (u u' : Char) (o : Option Str) (rest : Str)
    (ho : digitRun o) (hu' : ¬ Char.isDigit u') (hneu : u' ≠ u)
    (habs : o = none → refComponent u rest = (0, rest)) :
    refComponent u (optComp u' o ++ rest) = (0, optComp u' o ++ rest) := by
  cases o with
  | none =>
    simpa [optComp] using habs rfl
  | some ds =>
    obtain ⟨_, hds⟩ := ho
    have heq : optComp u' (some ds) ++ rest = ds ++ u' :: rest := by
      simp [optComp]
    rw [heq, refComponent_mismatch u u' ds rest hds hu' hneu]

/-- The manual reference parser of the spec evaluates a restricted
well-formed string to `3600*h + 60*m + s`. -/
lemma referenceParseDuration_mkPT (hd md sd : Option Str)
    (h1 : digitRun hd) (h2 : digitRun md) (h3 : digitRun sd) :
    referenceParseDuration (mkPT hd md sd) =
      3600 * optVal hd + 60 * optVal md + optVal sd := by
  have hS : refComponent 'S' (optComp 'S' sd) = (optVal sd, []) := by
    have := refComponent_optComp 'S' sd [] h3 (by decide)
      fun _ => refComponent_nil 'S'
    simpa using this
  have hSkipMS : refComponent 'M' (optComp 'S' sd) = (0, optComp 'S' sd) := by
    have := refComponent_skip 'M' 'S' sd [] h3 (by decide) (by decide)
      fun _ => refComponent_nil 'M'
    simpa using this
  have hM : refComponent 'M' (optComp 'M' md ++ optComp 'S' sd) =
      (optVal md, optComp 'S' sd) :=
    refComponent_optComp 'M' md (optComp 'S' sd) h2 (by decide) fun _ => hSkipMS
  have hSkipHS : refComponent 'H' (optComp 'S' sd) = (0, optComp 'S' sd) := by
    have := refComponent_skip 'H' 'S' sd [] h3 (by decide) (by decide)
      fun _ => refComponent_nil 'H'
    simpa using this
  have hSkipHM : refComponent 'H' (optComp 'M' md ++ optComp 'S' sd) =
      (0, optComp 'M' md ++ optComp 'S' sd) :=
    refComponent_skip 'H' 'M' md (optComp 'S' sd) h2 (by decide) (by decide)
      fun _ => hSkipHS
  have hH : refComponent 'H' (optComp 'H' hd ++ (optComp 'M' md ++ optComp 'S' sd)) =
      (optVal hd, optComp 'M' md ++ optComp 'S' sd) :=
    refComponent_optComp 'H' hd (optComp 'M' md ++ optComp 'S' sd) h1 (by decide)
      fun _ => hSkipHM
  unfold mkPT
  simp [referenceParseDuration, hH, hM, hS]

/-- C5: every well-formed duration string of the restricted form
`PT[nH][nM][nS]` parses to exactly `3600*h + 60*m + s` (a missing
component counting as `0`), and in particular
`parse_duration "PT1H30M15S" = 5415`, `parse_duration "PT45S" = 45`,
`parse_duration "PT2M" = 120`, while the empty string and `"garbage"`
both yield `0`. -/
theorem parse_duration_wellFormed_exact :
    (∀ hd md sd : Option Str, digitRun hd → digitRun md → digitRun sd →
      parse_duration (mkPT hd md sd) =
        ((3600 * optVal hd + 60 * optVal md + optVal sd : ℕ) : ℚ)) ∧
    parse_duration ("PT1H30M15S".toList) = 5415 ∧
    parse_duration ("PT45S".toList) = 45 ∧
    parse_duration ("PT2M".toList) = 120 ∧
    parse_duration ("".toList) = 0 ∧
    parse_duration ("garbage".toList) = 0 := by
  have huniv : ∀ hd md sd : Option Str, digitRun hd → digitRun md → digitRun sd →
      parse_duration (mkPT hd md sd) =
        ((3600 * optVal hd + 60 * optVal md + optVal sd : ℕ) : ℚ) := by
    intro hd md sd h1 h2 h3
    have hcore := isodateParseCore_mkPT hd md sd h1 h2 h3
    have hP : isodateParse (mkPT hd md sd) = isodateParseCore (mkPT hd md sd) := by
      unfold mkPT
      exact isodateParse_cons _ _ (by decide) (by decide)
    unfold parse_duration
    rw [hP, hcore]
    rfl
  refine ⟨huniv, ?_, ?_, ?_, by rfl, by rfl⟩
  · have he : "PT1H30M15S".toList =
        mkPT (some ['1']) (some ['3', '0']) (some ['1', '5']) := by decide
    rw [he, huniv _ _ _ (by decide) (by decide) (by decide)]
    have hv : (3600 * optVal (some ['1']) + 60 * optVal (some ['3', '0']) +
        optVal (some ['1', '5']) : ℕ) = 5415 := by decide
    rw [hv]
    norm_num
  · have he : "PT45S".toList = mkPT none none (some ['4', '5']) := by decide
    rw [he, huniv _ _ _ (by decide) (by decide) (by decide)]
    have hv : (3600 * optVal none + 60 * optVal none +
        optVal (some ['4', '5']) : ℕ) = 45 := by decide
    rw [hv]
    norm_num
  · have he : "PT2M".toList = mkPT none (some ['2']) none := by decide
    rw [he, huniv _ _ _ (by decide) (by decide) (by decide)]
    have hv : (3600 * optVal none + 60 * optVal (some ['2']) +
        optVal none : ℕ) = 120 := by decide
    rw [hv]
    norm_num

/-- Witness for C5 at the digit runs of `"PT1H30M15S"`. -/
theorem parse_duration_wellFormed_exact_witness :
    parse_duration (mkPT (some ['1']) (some ['3', '0']) (some ['1', '5'])) =
      ((3600 * optVal (some ['1']) + 60 * optVal (some ['3', '0']) +
        optVal (some ['1', '5']) : ℕ) : ℚ) :=
  parse_duration_wellFormed_exact.1 _ _ _ (by decide) (by decide) (by decide)

/-- Counterexample for C7: on `"P1D"` the `isodate`-backed `parse_duration`
returns `86400` while the spec's manual reference parser, which accepts
only the restricted form `PT[nH][nM][nS]`, yields `0`. -/
theorem parse_duration_reference_counterexample :
    parse_duration ("P1D".toList) = 86400 ∧
    referenceParseDuration ("P1D".toList) = 0 ∧
    parse_duration ("P1D".toList) ≠ (referenceParseDuration ("P1D".toList) : ℚ) := by
  have hds : ∀ c ∈ ['1'], Char.isDigit c := by decide
  have hY : matchGroup 'Y' ['1', 'D'] = (0, ['1', 'D']) :=
    matchGroup_mismatch 'Y' 'D' ['1'] [] hds (by decide) (by decide) (by decide)
      (by decide)
  have hM : matchGroup 'M' ['1', 'D'] = (0, ['1', 'D']) :=
    matchGroup_mismatch 'M' 'D' ['1'] [] hds (by decide) (by decide) (by decide)
      (by decide)
  have hW : matchGroup 'W' ['1', 'D'] = (0, ['1', 'D']) :=
    matchGroup_mismatch 'W' 'D' ['1'] [] hds (by decide) (by decide) (by decide)
      (by decide)
  have hD : matchGroup 'D' ['1', 'D'] = ((digitsVal ['1'] : ℚ), []) :=
    matchGroup_present 'D' ['1'] [] (by decide) hds (by decide) (by decide) (by decide)
  have hone : digitsVal ['1'] = 1 := by decide
  have hlist : "P1D".toList = 'P' :: ['1', 'D'] := by decide
  have hdg : dateGroups ['1', 'D'] = ((0, 0, 0, (1 : ℚ)), []) := by
    simp [dateGroups, hY, hM, hW, hD, hone]
  have hw : isWordChar '1' = true := by decide
  have hcore : isodateParseCore ("P1D".toList) = some 86400 := by
    rw [hlist]
    simp [isodateParseCore, hdg, hw]
  have hp : isodateParse ("P1D".toList) = isodateParseCore ("P1D".toList) := by
    rw [hlist]
    exact isodateParse_cons _ _ (by decide) (by decide)
  have h1 : parse_duration ("P1D".toList) = 86400 := by
    unfold parse_duration
    rw [hp, hcore]
    rfl
  have h2 : referenceParseDuration ("P1D".toList) = 0 := by decide
  refine ⟨h1, h2, ?_⟩
  rw [h1, h2]
  norm_num

/-- C7 (amended): on every string of the restricted form `PT[nH][nM][nS]`
the `isodate`-backed `parse_duration` agrees with the spec's manual
reference parser; outside that form the two differ (the library also
accepts dates, weeks, fractions and signs). -/
theorem parse_duration_eq_reference_on_restricted :
    ∀ hd md sd : Option Str, digitRun hd → digitRun md → digitRun sd →
      parse_duration (mkPT hd md sd) =
        (referenceParseDuration (mkPT hd md sd) : ℚ) := by
  intro hd md sd h1 h2 h3
  have hcore := isodateParseCore_mkPT hd md sd h1 h2 h3
  have href := referenceParseDuration_mkPT hd md sd h1 h2 h3
  have hP : isodateParse (mkPT hd md sd) = isodateParseCore (mkPT hd md sd) := by
    unfold mkPT
    exact isodateParse_cons _ _ (by decide) (by decide)
  unfold parse_duration
  rw [hP, hcore, href]
  rfl

/-- A successful `matchNumber` yields a nonnegative value. -/
lemma matchNumber_nonneg (s : Str) (q : ℚ) (r : Str)
    (h : matchNumber s = some (q, r)) : 0 ≤ q := by
  simp only [matchNumber] at h
  by_cases h1 : s.takeWhile Char.isDigit = []
  · rw [if_pos h1] at h
    simp at h
  · rw [if_neg h1] at h
    cases hdw : s.dropWhile Char.isDigit with
    | nil =>
      rw [hdw] at h
      simp only [Option.some.injEq, Prod.mk.injEq] at h
      obtain ⟨hq, -⟩ := h
      subst hq
      positivity
    | cons c r2 =>
      rw [hdw] at h
      dsimp only at h
      by_cases h2 : c = '.' ∨ c = ','
      · rw [if_pos h2] at h
        by_cases h3 : r2.takeWhile Char.isDigit = []
        · rw [if_pos h3] at h
          simp only [Option.some.injEq, Prod.mk.injEq] at h
          obtain ⟨hq, -⟩ := h
          subst hq
          positivity
        · rw [if_neg h3] at h
          simp only [Option.some.injEq, Prod.mk.injEq] at h
          obtain ⟨hq, -⟩ := h
          subst hq
          positivity
      · rw [if_neg h2] at h
        simp only [Option.some.injEq, Prod.mk.injEq] at h
        obtain ⟨hq, -⟩ := h
        subst hq
        positivity

/-- Every component group value is nonnegative. -/
lemma matchGroup_fst_nonneg (u : Char) (s : Str) : 0 ≤ (matchGroup u s).1 := by
  unfold matchGroup
  cases hmn : matchNumber s with
  | none => simp
  | some p =>
    obtain ⟨q, r⟩ := p
    have hq := matchNumber_nonneg s q r hmn
    cases r with
    | nil => simp
    | cons c r2 =>
      by_cases hcu : c = u
      · simp [hcu, hq]
      · simp [hcu]

/-- All four date component values are nonnegative. -/
lemma dateGroups_nonneg (s : Str) :
    0 ≤ (dateGroups s).1.1 ∧ 0 ≤ (dateGroups s).1.2.1 ∧
      0 ≤ (dateGroups s).1.2.2.1 ∧ 0 ≤ (dateGroups s).1.2.2.2 := by
  unfold dateGroups
  exact ⟨matchGroup_fst_nonneg _ _, matchGroup_fst_nonneg _ _,
    matchGroup_fst_nonneg _ _, matchGroup_fst_nonneg _ _⟩

/-- All three time component values are nonnegative. -/
lemma timeGroups_nonneg (s : Str) :
    0 ≤ (timeGroups s).1.1 ∧ 0 ≤ (timeGroups s).1.2.1 ∧ 0 ≤ (timeGroups s).1.2.2 := by
  unfold timeGroups
  exact ⟨matchGroup_fst_nonneg _ _, matchGroup_fst_nonneg _ _,
    matchGroup_fst_nonneg _ _⟩

/-- The unsigned `isodate` parse never produces a negative total. -/
lemma isodateParseCore_nonneg (s : Str) (q : ℚ)
    (h : isodateParseCore s = some q) : 0 ≤ q := by
  unfold isodateParseCore at h
  cases s with
  | nil => simp at h
  | cons c s2 =>
    by_cases hc : c = 'P'
    · simp only [hc, if_true] at h
      cases s2 with
      | nil => simp at h
      | cons c2 t =>
        by_cases hw : isWordChar c2
        · simp only [hw, if_true] at h
          have hdgn := dateGroups_nonneg (c2 :: t)
          rcases hdgeq : dateGroups (c2 :: t) with ⟨⟨y, mo, w, d⟩, rest⟩
          rw [hdgeq] at h hdgn
          dsimp only at h hdgn
          rcases hdgn with ⟨-, -, hwk, hdy⟩
          cases rest with
          | nil =>
            simp at h
            subst h
            linarith
          | cons c3 t1 =>
            by_cases hT : c3 = 'T'
            · subst hT
              simp at h
              have htn := timeGroups_nonneg t1
              rcases htgeq : timeGroups t1 with ⟨⟨hh, mm, ss⟩, trest⟩
              rw [htgeq] at h htn
              dsimp only at h htn
              rcases htn with ⟨hh1, hm1, hs1⟩
              obtain ⟨-, hq⟩ := h
              subst hq
              linarith
            · simp [hT] at h
        · simp [hw] at h
    · simp [hc] at h

/-- Counterexample for C6: `parse_duration` forwards the sign and the
fractional seconds accepted by the `isodate` regex, so its result is
neither always nonnegative nor always an integer: `"-PT5S"` yields `-5`
and `"PT0.5S"` yields `1/2`. -/
theorem parse_duration_nonneg_counterexample :
    parse_duration ("-PT5S".toList) = -5 ∧
    ¬ 0 ≤ parse_duration ("-PT5S".toList) ∧
    parse_duration ("PT0.5S".toList) = 1 / 2 := by
  have h5core : isodateParseCore ['P', 'T', '5', 'S'] = some 5 := by
    have he : (['P', 'T', '5', 'S'] : Str) = mkPT none none (some ['5']) := by decide
    rw [he, isodateParseCore_mkPT none none (some ['5']) trivial trivial (by decide)]
    have hv : (3600 * optVal none + 60 * optVal none + optVal (some ['5']) : ℕ) = 5 := by
      decide
    rw [hv]
    norm_num
  have hneg : parse_duration ("-PT5S".toList) = -5 := by
    have hlist : "-PT5S".toList = '-' :: "PT5S".toList := by decide
    unfold parse_duration
    rw [hlist]
    simp [isodateParse, h5core]
  have hmn : matchNumber ['0', '.', '5', 'S'] = some (1 / 2, ['S']) := by
    have ht : (['0', '.', '5', 'S'] : Str).takeWhile Char.isDigit = ['0'] := by decide
    have hd2 : (['0', '.', '5', 'S'] : Str).dropWhile Char.isDigit = ['.', '5', 'S'] := by
      decide
    have ht2 : (['5', 'S'] : Str).takeWhile Char.isDigit = ['5'] := by decide
    have hd3 : (['5', 'S'] : Str).dropWhile Char.isDigit = ['S'] := by decide
    have h0 : digitsVal ['0'] = 0 := by decide
    have h5 : digitsVal ['5'] = 5 := by decide
    simp [matchNumber, ht, hd2, ht2, hd3, h0, h5]
    norm_num
  have hH : matchGroup 'H' ['0', '.', '5', 'S'] = (0, ['0', '.', '5', 'S']) := by
    simp [matchGroup, hmn]
  have hM2 : matchGroup 'M' ['0', '.', '5', 'S'] = (0, ['0', '.', '5', 'S']) := by
    simp [matchGroup, hmn]
  have hS2 : matchGroup 'S' ['0', '.', '5', 'S'] = (1 / 2, []) := by
    simp [matchGroup, hmn]
  have htime : timeGroups ['0', '.', '5', 'S'] = ((0, 0, 1 / 2), []) := by
    simp [timeGroups, hH, hM2, hS2]
  have hfrac : parse_duration ("PT0.5S".toList) = 1 / 2 := by
    have hlist : "PT0.5S".toList = 'P' :: 'T' :: ['0', '.', '5', 'S'] := by decide
    have hw : isWordChar 'T' = true := by decide
    unfold parse_duration
    rw [hlist]
    have hcore : isodateParseCore ('P' :: 'T' :: ['0', '.', '5', 'S']) = some (1 / 2) := by
      simp [isodateParseCore, dateGroups_T, htime, hw]
    rw [isodateParse_cons _ _ (by decide) (by decide), hcore]
    rfl
  refine ⟨hneg, ?_, hfrac⟩
  rw [hneg]
  norm_num

/-- C6 (amended): `parse_duration` is a total function — the `try/except`
absorbs every parse failure into the result `0` — and on every input
without a leading `-` sign its result is nonnegative; a leading `-`
yields the negated total and fractional components yield non-integer
rationals, as the counterexample records. -/
theorem parse_duration_total_nonneg_unsigned :
    ∀ s : Str, (isodateParse s = none → parse_duration s = 0) ∧
      (s.head? ≠ some '-' → 0 ≤ parse_duration s) := by
  intro s
  constructor
  · intro h
    simp [parse_duration, h]
  · intro hs
    unfold parse_duration isodateParse
    cases s with
    | nil => simp [isodateParseCore]
    | cons c r =>
      have hc : c ≠ '-' := by
        intro hc
        subst hc
        exact hs rfl
      simp only [hc, if_false]
      by_cases hp : c = '+'
      · simp only [hp, if_true]
        cases hcore : isodateParseCore r with
        | none => simp
        | some q =>
          have := isodateParseCore_nonneg r q hcore
          simpa using this
      · simp only [hp, if_false]
        cases hcore : isodateParseCore (c :: r) with
        | none => simp
        | some q =>
          have := isodateParseCore_nonneg (c :: r) q hcore
          simpa using this

/-- Witness for C6 (amended): nonnegativity of the parse of the unsigned
string `"PT45S"`. -/
theorem parse_duration_total_nonneg_unsigned_witness :
    0 ≤ parse_duration ("PT45S".toList) :=
  (parse_duration_total_nonneg_unsigned ("PT45S".toList)).2 (by decide)

/-- Witness for C7 (amended) at `"PT2H5S"`. -/
theorem parse_duration_eq_reference_on_restricted_witness :
    parse_duration (mkPT (some ['2']) none (some ['5'])) =
      (referenceParseDuration (mkPT (some ['2']) none (some ['5'])) : ℚ) :=
  parse_duration_eq_reference_on_restricted _ _ _ (by decide) (by decide) (by decide)

/-! ### The search pipeline of `main` (src/app.py lines 169-271)

`main` maps each fetched item to a record (title, description, channel,
counters, parsed duration), drops it when the lowercased keyword occurs
in neither the lowercased title nor the lowercased description, drops it
when its outlier score is `≤` the minimum-score slider value, drops it
when it fails the selected duration-class filter, then stable-sorts the
survivors in descending order of the selected key and keeps the first
10.  The pipeline is embedded generically over a linearly ordered score
type so that its statements cover the real-valued
`calculate_outlier_score` instance. -/

/-- The duration-class filter choices of the sidebar. -/
inductive VideoType
  | all
  | short
  | long
deriving DecidableEq

/-- The sort options of the sidebar. -/
inductive SortKey
  | outlierScore
  | viewCount
deriving DecidableEq

/-- One fetched video record as shaped by the loop of `main`
(lines 208-231): snippet fields, counters and the parsed duration. -/
structure Video where
  videoId : Str
  title : Str
  description : Str
  tags : List Str
  channelTitle : Str
  viewCount : ℕ
  likeCount : ℕ
  commentCount : ℕ
  durationSeconds : ℚ
deriving DecidableEq

/-- Python's case-insensitive containment test
`kw.lower() in s.lower()`. -/
def occursIn (kw s : Str) : Prop := lowerStr kw <:+: lowerStr s

instance (kw s : Str) : Decidable (occursIn kw s) :=
  inferInstanceAs (Decidable (_ <:+: _))

/-- The keyword test of line 221: the keyword occurs in the title or in
the description. -/
def keywordPresent (kw : Str) (v : Video) : Prop :=
  occursIn kw v.title ∨ occursIn kw v.description

instance (kw : Str) (v : Video) : Decidable (keywordPresent kw v) :=
  inferInstanceAs (Decidable (_ ∨ _))

/-- The duration-class filter of lines 238-242. -/
def durationOkB (vt : VideoType) (v : Video) : Bool :=
  match vt with
  | .all => true
  | .short => decide (v.durationSeconds < 180)
  | .long => decide (180 ≤ v.durationSeconds)

/-- The conjunction of the three `continue` checks of lines 220-242:
keyword presence, strict score threshold, duration class. -/
def keepVideo {α : Type} [LinearOrder α] (score : Video → α) (kw : Str)
    (minScore : α) (vt : VideoType) (v : Video) : Bool :=
  decide (keywordPresent kw v) && decide (minScore < score v) && durationOkB vt v

/-- The filtering stage of `main`. -/
def filterVideos {α : Type} [LinearOrder α] (score : Video → α) (kw : Str)
    (minScore : α) (vt : VideoType) (l : List Video) : List Video :=
  l.filter (keepVideo score kw minScore vt)

/-- The relation of a Python stable descending sort by `key`
(`sorted(..., key=key, reverse=True)`). -/
def sortRel {β γ : Type} [LinearOrder γ] (key : β → γ) : β → β → Prop :=
  fun a b => key b ≤ key a

instance sortRelDecidable {β γ : Type} [LinearOrder γ] (key : β → γ) :
    DecidableRel (sortRel key) :=
  fun a b => inferInstanceAs (Decidable (key b ≤ key a))

instance sortRelTotal {β γ : Type} [LinearOrder γ] (key : β → γ) :
    IsTotal β (sortRel key) :=
  ⟨fun a b => le_total (key b) (key a)⟩

instance sortRelTrans {β γ : Type} [LinearOrder γ] (key : β → γ) :
    IsTrans β (sortRel key) :=
  ⟨fun _ _ _ h1 h2 => le_trans h2 h1⟩

/-- Python's `sorted(l, key=key, reverse=True)`: a stable descending
sort, embedded as insertion sort with the nonstrict descending
relation (which inserts each element after earlier equal-key ones). -/
def sortDescBy {β γ : Type} [LinearOrder γ] (key : β → γ) (l : List β) : List β :=
  List.insertionSort (sortRel key) l

/-- The sorting stage of lines 264-268. -/
def sortVideos {α : Type} [LinearOrder α] (score : Video → α) (sk : SortKey)
    (l : List Video) : List Video :=
  match sk with
  | .viewCount => sortDescBy (fun v => v.viewCount) l
  | .outlierScore => sortDescBy score l

/-- Sorting followed by the truncation `results[:10]` of line 271. -/
def rankVideos {α : Type} [LinearOrder α] (score : Video → α) (sk : SortKey)
    (l : List Video) : List Video :=
  (sortVideos score sk l).take 10

/-- The full filter/sort/truncate pipeline applied to the fetched
records. -/
def searchOutput {α : Type} [LinearOrder α] (score : Video → α) (kw : Str)
    (minScore : α) (vt : VideoType) (sk : SortKey) (l : List Video) : List Video :=
  rankVideos score sk (filterVideos score kw minScore vt l)

/-- The program's own score instance: `calculate_outlier_score` applied to
a record's counters and duration (line 234). -/
noncomputable def outlierScoreOf (v : Video) : ℝ :=
  calculate_outlier_score v.viewCount v.likeCount (v.durationSeconds : ℝ)

/-- The detail-fetch stage of lines 197-201: one single
`videos().list(id=",".join(video_ids))` request carrying every
identifier, with no batching loop. -/
def detailFetchBatches (ids : List Str) : List (List Str) := [ids]

/-! ### Lemmas about the stable descending sort -/

/-- The sorted list is a permutation of its input. -/
lemma sortDescBy_perm {β γ : Type} [LinearOrder γ] (key : β → γ) (l : List β) :
    (sortDescBy key l).Perm l :=
  List.perm_insertionSort (sortRel key) l

/-- The sorted list is pairwise descending in the key. -/
lemma sortDescBy_sorted {β γ : Type} [LinearOrder γ] (key : β → γ) (l : List β) :
    (sortDescBy key l).Pairwise (sortRel key) :=
  List.sorted_insertionSort (sortRel key) l

/-- Inserting `a` into `l` places it in front of exactly the elements of
its own key class: on each key class the insertion is a `cons`. -/
lemma orderedInsert_filter_keyEq {β γ : Type} [LinearOrder γ] (key : β → γ)
    (a : β) (l : List β) (k : γ) :
    ((l.orderedInsert (sortRel key) a).filter fun y => decide (key y = k)) =
      if key a = k then a :: (l.filter fun y => decide (key y = k))
      else l.filter fun y => decide (key y = k) := by
  rw [List.orderedInsert_eq_take_drop, List.filter_append]
  by_cases hk : key a = k
  · rw [if_pos hk]
    have htw : ∀ x ∈ l.takeWhile fun b => decide ¬ sortRel key a b,
        ¬ ((fun y => decide (key y = k)) x = true) := by
      intro x hx
      have hpx := List.mem_takeWhile_imp hx
      simp only [decide_eq_true_eq] at hpx ⊢
      intro hxk
      exact hpx (le_of_eq (by rw [hxk, ← hk]))
    rw [List.filter_eq_nil_iff.mpr htw, List.nil_append,
      List.filter_cons_of_pos (by simp [hk])]
    congr 1
    conv_rhs => rw [← List.takeWhile_append_dropWhile
      (fun b => decide ¬ sortRel key a b) l]
    rw [List.filter_append, List.filter_eq_nil_iff.mpr htw, List.nil_append]
  · rw [if_neg hk, List.filter_cons_of_neg (by simp [hk]), ← List.filter_append,
      List.takeWhile_append_dropWhile]

/-- Stability of the descending sort: each key class of the output is the
key class of the input, in input order. -/
lemma sortDescBy_filter_keyEq {β γ : Type} [LinearOrder γ] (key : β → γ)
    (l : List β) (k : γ) :
    ((sortDescBy key l).filter fun y => decide (key y = k)) =
      l.filter fun y => decide (key y = k) := by
  induction l with
  | nil => rfl
  | cons a l ih =>
    unfold sortDescBy at ih ⊢
    rw [show List.insertionSort (sortRel key) (a :: l) =
        (List.insertionSort (sortRel key) l).orderedInsert (sortRel key) a from rfl]
    rw [orderedInsert_filter_keyEq key a (List.insertionSort (sortRel key) l) k]
    by_cases hk : key a = k
    · rw [if_pos hk, List.filter_cons_of_pos (by simp [hk]), ih]
    · rw [if_neg hk, List.filter_cons_of_neg (by simp [hk]), ih]

/-- Every record of the final output is an input record that passed all
three `continue` checks. -/
lemma searchOutput_subset_filter {α : Type} [LinearOrder α] (score : Video → α)
    (kw : Str) (m : α) (vt : VideoType) (sk : SortKey) (l : List Video) (v : Video)
    (hv : v ∈ searchOutput score kw m vt sk l) :
    v ∈ l ∧ keepVideo score kw m vt v = true := by
  unfold searchOutput rankVideos at hv
  have h1 : v ∈ sortVideos score sk (filterVideos score kw m vt l) :=
    List.take_subset _ _ hv
  have h2 : v ∈ filterVideos score kw m vt l := by
    cases sk with
    | viewCount =>
      have h1' : v ∈ sortDescBy (fun v : Video => v.viewCount)
          (filterVideos score kw m vt l) := h1
      exact (sortDescBy_perm (fun v : Video => v.viewCount) _).subset h1'
    | outlierScore =>
      have h1' : v ∈ sortDescBy score (filterVideos score kw m vt l) := h1
      exact (sortDescBy_perm score _).subset h1'
  exact List.mem_filter.mp h2

/-- Unpacking the three conjuncts of a passed filter check. -/
lemma keepVideo_props {α : Type} [LinearOrder α] {score : Video → α} {kw : Str}
    {m : α} {vt : VideoType} {v : Video}
    (h : keepVideo score kw m vt v = true) :
    keywordPresent kw v ∧ m < score v ∧ durationOkB vt v = true := by
  unfold keepVideo at h
  simp only [Bool.and_eq_true, decide_eq_true_eq] at h
  exact ⟨h.1.1, h.1.2, h.2⟩

/-- The keyword-presence property of the claim: the keyword occurs
case-insensitively in the title, the description, or a tag. -/
def keywordInRecord (kw : Str) (v : Video) : Prop :=
  occursIn kw v.title ∨ occursIn kw v.description ∨ ∃ t ∈ v.tags, occursIn kw t

/-- C2: every record of the final output contains the keyword
case-insensitively in its title, description, or tags, and a record
containing it in none of the three is rejected whatever its score. -/
theorem searchOutput_keyword_invariant :
    ∀ {α : Type} [inst : LinearOrder α] (score : Video → α) (kw : Str) (m : α)
      (vt : VideoType) (sk : SortKey) (l : List Video) (v : Video),
      (v ∈ searchOutput score kw m vt sk l → keywordInRecord kw v) ∧
      (¬ keywordInRecord kw v → v ∉ searchOutput score kw m vt sk l) := by
  intro α inst score kw m vt sk l v
  have hmain : v ∈ searchOutput score kw m vt sk l → keywordInRecord kw v := by
    intro hv
    have hp := (keepVideo_props (searchOutput_subset_filter score kw m vt sk l v hv).2).1
    rcases hp with h | h
    · exact Or.inl h
    · exact Or.inr (Or.inl h)
  exact ⟨hmain, fun hnk hv => hnk (hmain hv)⟩

/-- C3: every record of the final output scores strictly above the
threshold, and a record scoring exactly the threshold is dropped. -/
theorem searchOutput_threshold_strict :
    ∀ {α : Type} [inst : LinearOrder α] (score : Video → α) (kw : Str) (m : α)
      (vt : VideoType) (sk : SortKey) (l : List Video) (v : Video),
      (v ∈ searchOutput score kw m vt sk l → m < score v) ∧
      (score v = m → v ∉ searchOutput score kw m vt sk l) := by
  intro α inst score kw m vt sk l v
  have hmain : v ∈ searchOutput score kw m vt sk l → m < score v := fun hv =>
    (keepVideo_props (searchOutput_subset_filter score kw m vt sk l v hv).2).2.1
  refine ⟨hmain, fun he hv => ?_⟩
  exact absurd (hmain hv) (by rw [he]; exact lt_irrefl m)

/-- C8: the duration-class filter holds on the final output — under
`Short` every output record is strictly shorter than 180 seconds, under
`Long` at least 180 seconds, and under `All` the filter consults only
the keyword and the score, never the duration. -/
theorem searchOutput_duration_class :
    ∀ {α : Type} [inst : LinearOrder α] (score : Video → α) (kw : Str) (m : α)
      (sk : SortKey) (l : List Video) (v : Video),
      (v ∈ searchOutput score kw m VideoType.short sk l → v.durationSeconds < 180) ∧
      (v ∈ searchOutput score kw m VideoType.long sk l → 180 ≤ v.durationSeconds) ∧
      (filterVideos score kw m VideoType.all l =
        l.filter fun u => decide (keywordPresent kw u) && decide (m < score u)) := by
  intro α inst score kw m sk l v
  refine ⟨?_, ?_, ?_⟩
  · intro hv
    have hd := (keepVideo_props
      (searchOutput_subset_filter score kw m VideoType.short sk l v hv).2).2.2
    simpa [durationOkB] using hd
  · intro hv
    have hd := (keepVideo_props
      (searchOutput_subset_filter score kw m VideoType.long sk l v hv).2).2.2
    simpa [durationOkB] using hd
  · unfold filterVideos
    apply List.filter_congr
    intro x _
    unfold keepVideo durationOkB
    simp

/-- C4: for every list of filtered records and either sort key, the
ranking stage truncates to 10 only after the sort, never returns more
than 10 records, sorts them in descending order of the chosen key, and
keeps records of equal key in their input order (each key class of the
output is a sublist of the input's key class). -/
theorem rankVideos_spec :
    ∀ {α : Type} [inst : LinearOrder α] (score : Video → α) (sk : SortKey)
      (l : List Video),
      (rankVideos score sk l).length ≤ 10 ∧
      rankVideos score sk l = (sortVideos score sk l).take 10 ∧
      (match sk with
       | .viewCount =>
           (rankVideos score sk l).Pairwise (fun a b => b.viewCount ≤ a.viewCount) ∧
           ∀ n : ℕ, ((rankVideos score sk l).filter fun v => decide (v.viewCount = n)).Sublist
             (l.filter fun v => decide (v.viewCount = n))
       | .outlierScore =>
           (rankVideos score sk l).Pairwise (fun a b => score b ≤ score a) ∧
           ∀ x : α, ((rankVideos score sk l).filter fun v => decide (score v = x)).Sublist
             (l.filter fun v => decide (score v = x))) := by
  intro α inst score sk l
  refine ⟨List.length_take_le _ _, rfl, ?_⟩
  cases sk with
  | viewCount =>
    constructor
    · exact List.Pairwise.sublist (List.take_sublist _ _)
        (sortDescBy_sorted (fun v : Video => v.viewCount) l)
    · intro n
      have h1 : ((rankVideos score SortKey.viewCount l).filter
          fun v => decide (v.viewCount = n)).Sublist
          ((sortDescBy (fun v : Video => v.viewCount) l).filter
            fun v => decide (v.viewCount = n)) :=
        List.Sublist.filter _ (List.take_sublist _ _)
      have h2 := sortDescBy_filter_keyEq (fun v : Video => v.viewCount) l n
      rw [h2] at h1
      exact h1
  | outlierScore =>
    constructor
    · exact List.Pairwise.sublist (List.take_sublist _ _) (sortDescBy_sorted score l)
    · intro x
      have h1 : ((rankVideos score SortKey.outlierScore l).filter
          fun v => decide (score v = x)).Sublist
          ((sortDescBy score l).filter fun v => decide (score v = x)) :=
        List.Sublist.filter _ (List.take_sublist _ _)
      have h2 := sortDescBy_filter_keyEq score l x
      rw [h2] at h1
      exact h1

/-- Counterexample for C9: `main` issues a single detail request with all
IDs joined; on 120 IDs it issues one batch of 120, not three batches of
at most 50. -/
theorem detailFetchBatches_counterexample :
    (detailFetchBatches (List.replicate 120 (['i'] : Str))).map List.length = [120] ∧
    (detailFetchBatches (List.replicate 120 (['i'] : Str))).map List.length ≠ [50, 50, 20] ∧
    ¬ ∀ b ∈ detailFetchBatches (List.replicate 120 (['i'] : Str)), b.length ≤ 50 := by
  refine ⟨by simp [detailFetchBatches], by simp [detailFetchBatches], ?_⟩
  intro hall
  have hb := hall (List.replicate 120 (['i'] : Str)) (by simp [detailFetchBatches])
  simp at hb

/-- C9 (amended): the detail-fetch stage issues exactly one request
carrying the whole ID list — relying on the search stage's cap of 50
results for the size bound — and its flattened response order is the
original ID order. -/
theorem detailFetchBatches_single :
    ∀ ids : List Str, detailFetchBatches ids = [ids] ∧
      (detailFetchBatches ids).flatten = ids ∧
      (detailFetchBatches ids).length = 1 := by
  intro ids
  exact ⟨rfl, by simp [detailFetchBatches], rfl⟩

/-- A concrete record for the pipeline witnesses: keyword `finance`
occurs in the title, the score (view count) is positive, the duration
is 60 seconds. -/
def demoVideo : Video :=
  ⟨"v1".toList, "Finance Tips".toList, "daily".toList, [], "chan".toList, 100, 10, 1, 60⟩

/-- Witness for C2 at a singleton search over `demoVideo`. -/
theorem searchOutput_keyword_invariant_witness :
    keywordInRecord ("finance".toList) demoVideo :=
  (searchOutput_keyword_invariant (fun v => (v.viewCount : ℚ)) ("finance".toList) 0
    VideoType.all SortKey.outlierScore [demoVideo] demoVideo).1 (by decide)

/-- Witness for C3 at a singleton search over `demoVideo`. -/
theorem searchOutput_threshold_strict_witness :
    (0 : ℚ) < (demoVideo.viewCount : ℚ) :=
  (searchOutput_threshold_strict (fun v => (v.viewCount : ℚ)) ("finance".toList) 0
    VideoType.all SortKey.outlierScore [demoVideo] demoVideo).1 (by decide)

/-- Witness for C8 at a singleton `Short` search over `demoVideo`. -/
theorem searchOutput_duration_class_witness :
    demoVideo.durationSeconds < 180 :=
  (searchOutput_duration_class (fun v => (v.viewCount : ℚ)) ("finance".toList) 0
    SortKey.outlierScore [demoVideo] demoVideo).1 (by decide)
